import Mathlib

/-!
Verification of pipetui (mel-edo/pipetui) against its specification.

The Rust sources are embedded shallowly:
* `src/execution.rs` — worker loop, stream reader and aggregator become pure
  functions over explicit event lists (`workerLoop`, `streamPipeChunks`,
  `aggStep`/`aggregateStreams`); channels and threads become lists of the
  messages that cross them, in the order the single consumer observes them.
* `src/history.rs` — the `App` state machine becomes a record `App` with one
  Lean function per Rust method; `Instant` becomes a millisecond count, so
  `Instant::elapsed` at poll time `now` is the truncated difference `now - t`.
* `src/parser.rs` — grapheme boundary search is embedded verbatim over the
  index list produced by an arbitrary grapheme segmentation; text is a
  `List Char` and byte offsets are computed with `Char.utf8Size`.
* Filesystem persistence (`src/persistence.rs`) is I/O and is dropped where a
  method calls it (`save_history`); it does not affect the in-memory state.
* Rust `str::trim` is modelled by `rustTrim` (ASCII whitespace); the
  commands involved are ASCII, and no claim distinguishes the two.
-/

namespace Pipetui

/-- Rust `str::trim`: leading and trailing whitespace removed. (Rust trims
Unicode whitespace, `Char.isWhitespace` the ASCII subset; the difference is
immaterial here and this form evaluates by kernel reduction.) -/
def rustTrim (s : String) : String :=
  String.mk (((s.data.dropWhile Char.isWhitespace).reverse.dropWhile
    Char.isWhitespace).reverse)

/-- Result of one executed command (`ExecResult` in `src/execution.rs`). -/
structure ExecResult where
  cmd : String
  status : Int
  stdout : String
  stderr : String
deriving DecidableEq

/-- Messages from the worker/aggregator to the UI (`UiMsg` in `src/execution.rs`). -/
inductive UiMsg where
  | started (cmd : String)
  | stdoutChunk (text : String)
  | stderrChunk (text : String)
  | finished (res : ExecResult)
deriving DecidableEq

/-- The UI-facing application state (`App` in `src/history.rs`).
`last_edit_at` stores a millisecond timestamp instead of an `Instant`;
`history_path` is dropped (pure I/O); the Rust fields `last_run_cmd`,
`stdout_partial` and `stderr_partial` are spelled `lastRunCmd`,
`stdoutPartial` and `stderrPartial`. -/
structure App where
  input : String
  cursor : Nat
  history : List String
  hist_pos : Option Nat
  output_lines : List String
  error_lines : List String
  status_line : String
  stdoutPartial : String
  stderrPartial : String
  is_running : Bool
  lastRunCmd : Option String
  last_edit_at : Option Nat
  append_history_on_finish : Bool
deriving DecidableEq

/-- `App::new` (`src/history.rs`), with the history list loaded from disk
passed in as a parameter (disk access is I/O). -/
def appNew (history : List String) : App :=
  { input := ""
    cursor := 0
    history := history
    hist_pos := none
    output_lines := ["(output will appear here)"]
    error_lines := []
    status_line := "Ready"
    stdoutPartial := ""
    stderrPartial := ""
    is_running := false
    lastRunCmd := none
    last_edit_at := none
    append_history_on_finish := false }

/-- `App::should_auto_run` (`src/history.rs`), evaluated at poll time `now`
(milliseconds); `edit_at.elapsed()` is `now - edit_at`. -/
def shouldAutoRun (a : App) (now : Nat) : Bool :=
  if a.is_running then false
  else
    match a.last_edit_at with
    | none => false
    | some editAt =>
      if now - editAt < 250 then false
      else if (rustTrim a.input).isEmpty then false
      else
        match a.lastRunCmd with
        | some last => if last = a.input then false else true
        | none => true

/-- `App::prepare_run` (`src/history.rs`): returns the updated state and the
boolean the Rust method returns. -/
def prepareRun (a : App) (cmd : String) (manual : Bool) : App × Bool :=
  if (rustTrim cmd).isEmpty then (a, false)
  else
    ({ a with
        hist_pos := none
        lastRunCmd := some cmd
        last_edit_at := none
        append_history_on_finish := manual }, true)

/-- `App::begin_run` (`src/history.rs`). -/
def beginRun (a : App) : App :=
  { a with
      status_line := "running..."
      output_lines := []
      error_lines := []
      stdoutPartial := ""
      stderrPartial := ""
      is_running := true }

/-- `App::mark_edited` (`src/history.rs`) at time `now`. -/
def markEdited (a : App) (now : Nat) : App :=
  { a with last_edit_at := some now }

/-- `HISTORY_LIMIT` (`src/persistence.rs`). -/
def HISTORY_LIMIT : Nat := 500

/-- The pure list part of `App::append_history` (`src/history.rs`): dedup
against the last entry, push, evict oldest entries past the cap. -/
def appendHistoryList (h : List String) (entry : String) : List String :=
  if h.getLast? = some entry then h
  else
    let h2 := h ++ [entry]
    if HISTORY_LIMIT < h2.length then h2.drop (h2.length - HISTORY_LIMIT) else h2

/-- `App::append_history` (`src/history.rs`); the `save_history` call is disk
I/O and does not change the in-memory state. On the dedup early return
`hist_pos` is untouched, otherwise it is reset to `none`. -/
def appendHistory (a : App) (entry : String) : App :=
  if a.history.getLast? = some entry then a
  else
    { a with
        history := appendHistoryList a.history entry
        hist_pos := none }

/-- One trailing carriage return removed, if present (the
`if line.ends_with('\r') then line.pop()` idiom in `src/history.rs`). -/
def stripOneCr (l : List Char) : List Char :=
  if l.getLast? = some '\r' then l.dropLast else l

/-- Splits text at each newline: returns the complete lines (newlines removed,
in order) and the remaining text after the last newline. This is the loop of
`App::append_chunk` (`src/history.rs`) before per-line `\r` stripping, and the
backbone of Rust's `str::lines`. -/
def splitNl : List Char → List Char → List (List Char) × List Char
  | [], acc => ([], acc.reverse)
  | c :: rest, acc =>
    if c = '\n' then
      let r := splitNl rest []
      (acc.reverse :: r.1, r.2)
    else splitNl rest (c :: acc)

/-- `App::append_chunk` (`src/history.rs`): the chunk is appended to the
partial buffer, every complete line (one trailing `\r` stripped) moves to the
line list, the text after the last newline stays in the partial buffer.
Returns (new partial, new lines). -/
def appendChunkFn (chunk buffered : String) (lines : List String) :
    String × List String :=
  let r := splitNl (buffered.data ++ chunk.data) []
  (String.mk r.2, lines ++ r.1.map (fun l => String.mk (stripOneCr l)))

/-- `App::append_stdout_chunk` (`src/history.rs`). -/
def appendStdoutChunk (a : App) (chunk : String) : App :=
  let r := appendChunkFn chunk a.stdoutPartial a.output_lines
  { a with stdoutPartial := r.1, output_lines := r.2 }

/-- `App::append_stderr_chunk` (`src/history.rs`). -/
def appendStderrChunk (a : App) (chunk : String) : App :=
  let r := appendChunkFn chunk a.stderrPartial a.error_lines
  { a with stderrPartial := r.1, error_lines := r.2 }

/-- All trailing carriage returns removed: Rust `trim_end_matches('\r')`
in `App::flush_partials` (`src/history.rs`). -/
def trimEndCr (s : String) : String :=
  String.mk ((s.data.reverse.dropWhile (fun c => c = '\r')).reverse)

/-- `App::flush_partials` (`src/history.rs`). -/
def flushPartials (a : App) : App :=
  let a1 :=
    if a.stdoutPartial.isEmpty then a
    else
      { a with
          output_lines := a.output_lines ++ [trimEndCr a.stdoutPartial]
          stdoutPartial := "" }
  if a1.stderrPartial.isEmpty then a1
  else
    { a1 with
        error_lines := a1.error_lines ++ [trimEndCr a1.stderrPartial]
        stderrPartial := "" }

/-- Rust `str::lines`: split on `\n`, strip one `\r` before each `\n`, no
trailing empty line for a terminal newline; a final segment without a newline
keeps any bare trailing `\r`. -/
def rustLines (s : String) : List String :=
  let r := splitNl s.data []
  r.1.map (fun l => String.mk (stripOneCr l)) ++
    (if r.2.isEmpty then [] else [String.mk r.2])

/-- `App::finish_run` (`src/history.rs`). -/
def finishRun (a : App) (res : ExecResult) : App :=
  let a1 := flushPartials a
  let a2 :=
    if a1.output_lines.isEmpty then
      if res.stdout.isEmpty then { a1 with output_lines := ["<no stdout>"] }
      else { a1 with output_lines := rustLines res.stdout }
    else a1
  let a3 :=
    if a2.error_lines.isEmpty && !res.stderr.isEmpty then
      { a2 with error_lines := rustLines res.stderr }
    else a2
  let a4 := { a3 with status_line := "exit " ++ toString res.status, is_running := false }
  let a5 :=
    if a4.append_history_on_finish && !(rustTrim res.cmd).isEmpty then appendHistory a4 res.cmd
    else a4
  { a5 with append_history_on_finish := false }

/-- Outcome of `Command::spawn` in `spawn_worker` (`src/execution.rs`): on
success, the `child.wait()` result (`Except` for the `io::Result`, `Option`
for `ExitStatus::code`) together with the two accumulated stream logs; on
failure, the error text. -/
inductive SpawnOutcome where
  | ok (wait : Except Unit (Option Int)) (stdoutLog stderrLog : String)
  | err (msg : String)

/-- Exit code resolution in `spawn_worker` (`src/execution.rs`):
`status.as_ref().ok().and_then(s, s.code()).unwrap_or(-1)`. -/
def resolveStatusCode : Except Unit (Option Int) → Int
  | .ok (some c) => c
  | .ok none => -1
  | .error _ => -1

/-- The `ExecResult` that `spawn_worker` (`src/execution.rs`) builds for one
run request, by case on the spawn outcome. -/
def runCommand (cmd : String) : SpawnOutcome → ExecResult
  | .ok wait outLog errLog =>
    { cmd := cmd
      status := resolveStatusCode wait
      stdout := outLog
      stderr := errLog }
  | .err e =>
    { cmd := cmd
      status := -1
      stdout := ""
      stderr := "Failed to spawn: " ++ e }

/-- The lifecycle messages `spawn_worker` itself sends for one request:
`Started` on receipt, `Finished` with the run's result. -/
def workerHandle (cmd : String) (o : SpawnOutcome) : List UiMsg :=
  [UiMsg.started cmd, UiMsg.finished (runCommand cmd o)]

/-- The worker thread's `while let Ok(msg) = rx.recv()` loop
(`src/execution.rs`) over the sequence of received run requests, each paired
with its spawn outcome. -/
def workerLoop : List (String × SpawnOutcome) → List UiMsg
  | [] => []
  | (cmd, o) :: rest => workerHandle cmd o ++ workerLoop rest

/-- Number of `Finished` messages in a message list. -/
def countFinished (msgs : List UiMsg) : Nat :=
  (msgs.filter fun m =>
    match m with
    | UiMsg.finished _ => true
    | _ => false).length

/-- The chunking loop of `stream_pipe` (`src/execution.rs`):
`read_until(b'\n')` fills the buffer up to and including the newline (or up to
end-of-stream), and each filled buffer is sent as one chunk. `acc` is the
reversed buffer contents read so far in the current `read_until` call. The
stream is a decoded `List Char`; the byte `b'\n'` occurs in UTF-8 exactly at
the character `'\n'`, so the byte-level split points coincide. -/
def chunksAux : List Char → List Char → List (List Char)
  | [], acc => if acc.isEmpty then [] else [acc.reverse]
  | c :: rest, acc =>
    if c = '\n' then (acc.reverse ++ ['\n']) :: chunksAux rest []
    else chunksAux rest (c :: acc)

/-- The sequence of chunks `stream_pipe` (`src/execution.rs`) delivers (and
appends verbatim to the session log) for a given stream content. -/
def streamPipeChunks (stream : List Char) : List (List Char) :=
  chunksAux stream []

/-- The full-session accumulation log written by `stream_pipe`: the chunks
pushed verbatim in order. -/
def streamLog (stream : List Char) : List Char :=
  (streamPipeChunks stream).flatten

/-- One event observed by the `select!` loop of `aggregate_streams`
(`src/execution.rs`): a chunk on one of the two channels, a channel
disconnect, or a ticker tick. -/
inductive AggEvent where
  | outChunk (s : String)
  | errChunk (s : String)
  | outClose
  | errClose
  | tick
deriving DecidableEq

/-- A batched UI emission of `aggregate_streams`: a `StdoutChunk` or a
`StderrChunk` message. -/
inductive AggEmit where
  | outEvt (s : String)
  | errEvt (s : String)
deriving DecidableEq

/-- The local state of `aggregate_streams` (`src/execution.rs`): the two
pending accumulators, the two open flags, and whether the loop has hit its
`break`. -/
structure AggState where
  pendingStdout : String
  pendingStderr : String
  stdoutOpen : Bool
  stderrOpen : Bool
  done : Bool
deriving DecidableEq

/-- `aggregate_streams` initial state. -/
def aggInit : AggState :=
  { pendingStdout := ""
    pendingStderr := ""
    stdoutOpen := true
    stderrOpen := true
    done := false }

/-- The tail of one `aggregate_streams` loop iteration (`src/execution.rs`),
reached whenever the `select!` arm did not `continue`: emit each non-empty
accumulator (taking it), then `break` if both streams are closed and both
accumulators are empty. -/
def aggFlush (s : AggState) : AggState × List AggEmit :=
  let emits :=
    (if s.pendingStdout.isEmpty then [] else [AggEmit.outEvt s.pendingStdout]) ++
    (if s.pendingStderr.isEmpty then [] else [AggEmit.errEvt s.pendingStderr])
  let s1 := { s with pendingStdout := "", pendingStderr := "" }
  let s2 :=
    if !s1.stdoutOpen && !s1.stderrOpen &&
        s1.pendingStdout.isEmpty && s1.pendingStderr.isEmpty then
      { s1 with done := true }
    else s1
  (s2, emits)

/-- One `aggregate_streams` loop iteration on one observed event: a received
chunk is appended to its accumulator and the loop `continue`s (no emission);
a disconnect clears the stream's open flag and falls through to the emission
tail; a tick falls through directly. After `break` (`done`) nothing happens. -/
def aggStep (s : AggState) (e : AggEvent) : AggState × List AggEmit :=
  if s.done then (s, [])
  else
    match e with
    | .outChunk c => ({ s with pendingStdout := s.pendingStdout ++ c }, [])
    | .errChunk c => ({ s with pendingStderr := s.pendingStderr ++ c }, [])
    | .outClose => aggFlush { s with stdoutOpen := false }
    | .errClose => aggFlush { s with stderrOpen := false }
    | .tick => aggFlush s

/-- The `aggregate_streams` loop run over a whole observed event sequence,
collecting the emissions in order. -/
def aggRunAux : AggState → List AggEvent → AggState × List AggEmit
  | s, [] => (s, [])
  | s, e :: rest =>
    let r := aggStep s e
    let r2 := aggRunAux r.1 rest
    (r2.1, r.2 ++ r2.2)

/-- The flush after the loop in `aggregate_streams` (`src/execution.rs`):
send whatever is still pending in either accumulator. -/
def aggFinal (s : AggState) : List AggEmit :=
  (if s.pendingStdout.isEmpty then [] else [AggEmit.outEvt s.pendingStdout]) ++
  (if s.pendingStderr.isEmpty then [] else [AggEmit.errEvt s.pendingStderr])

/-- Everything `aggregate_streams` emits for an observed event sequence:
the loop's emissions followed by the post-loop flush. -/
def aggregateStreams (events : List AggEvent) : List AggEmit :=
  let r := aggRunAux aggInit events
  r.2 ++ aggFinal r.1

/-- Concatenation of the stdout payloads in an emission list. -/
def emitOutConcat : List AggEmit → String
  | [] => ""
  | .outEvt s :: rest => s ++ emitOutConcat rest
  | .errEvt _ :: rest => emitOutConcat rest

/-- Concatenation of the stderr payloads in an emission list. -/
def emitErrConcat : List AggEmit → String
  | [] => ""
  | .outEvt _ :: rest => emitErrConcat rest
  | .errEvt s :: rest => s ++ emitErrConcat rest

/-- Concatenation of the stdout chunk payloads in an observed event list. -/
def chunkOutConcat : List AggEvent → String
  | [] => ""
  | .outChunk s :: rest => s ++ chunkOutConcat rest
  | _ :: rest => chunkOutConcat rest

/-- Concatenation of the stderr chunk payloads in an observed event list. -/
def chunkErrConcat : List AggEvent → String
  | [] => ""
  | .errChunk s :: rest => s ++ chunkErrConcat rest
  | _ :: rest => chunkErrConcat rest

/-- Well-formedness of an observed event sequence with respect to the given
open flags: a channel delivers no chunk once it has disconnected. (Repeated
disconnect events and ticks are unrestricted: a disconnected crossbeam channel
stays ready, so the real `select!` may observe its `Err` repeatedly.) -/
def wfAux : Bool → Bool → List AggEvent → Bool
  | _, _, [] => true
  | oOpen, eOpen, e :: rest =>
    match e with
    | .outChunk _ => oOpen && wfAux oOpen eOpen rest
    | .errChunk _ => eOpen && wfAux oOpen eOpen rest
    | .outClose => wfAux false eOpen rest
    | .errClose => wfAux oOpen false rest
    | .tick => wfAux oOpen eOpen rest

/-- Well-formedness of a full observed event sequence (both channels
initially open). -/
def wfTrace (events : List AggEvent) : Bool :=
  wfAux true true events

/-- Number of stdout emissions in an emission list. -/
def countOutEvents (es : List AggEmit) : Nat :=
  (es.filter fun e =>
    match e with
    | AggEmit.outEvt _ => true
    | _ => false).length

/-- Number of stderr emissions in an emission list. -/
def countErrEvents (es : List AggEmit) : Nat :=
  (es.filter fun e =>
    match e with
    | AggEmit.errEvt _ => true
    | _ => false).length

/-- The stdout payload an observed event contributes (the chunk text for
`outChunk`, nothing otherwise). -/
def outPayload : AggEvent → String
  | .outChunk c => c
  | _ => ""

/-- The stderr payload an observed event contributes. -/
def errPayload : AggEvent → String
  | .errChunk c => c
  | _ => ""

/-- Aggregator-state soundness: once the loop has hit `break`, both streams
are closed and both accumulators are empty. -/
def AggInv (s : AggState) : Prop :=
  s.done = true →
    s.stdoutOpen = false ∧ s.stderrOpen = false ∧
    s.pendingStdout = "" ∧ s.pendingStderr = ""

/-!
Byte-level editor model, for the cursor-safety invariant. Rust strings are
UTF-8 byte sequences and `App.cursor` is a byte offset, so text is modelled as
the decoded `List Char` with byte positions computed via `Char.utf8Size`. The
`unicode_segmentation` crate is external to the repository, so grapheme
segmentation is a parameter `seg`; `SegSpec` states the contract every
segmentation satisfies (clusters are non-empty and concatenate back to the
text), which is all `prev/next_grapheme_boundary` rely on.
-/

/-- UTF-8 byte length of a character list (Rust `str::len`). -/
def utf8Len (cs : List Char) : Nat :=
  (cs.map Char.utf8Size).sum

/-- `p` is a character boundary of the UTF-8 encoding of `cs`: the byte
length of some prefix. Exactly these positions are safe for Rust's
`String::insert`, `String::drain` and slicing. -/
def IsBoundary (cs : List Char) (p : Nat) : Prop :=
  ∃ k, k ≤ cs.length ∧ p = utf8Len (cs.take k)

/-- Contract of `unicode_segmentation`'s grapheme clustering: the clusters of
a text are non-empty and concatenate back to the text. -/
def SegSpec (seg : List Char → List (List Char)) : Prop :=
  ∀ cs, (seg cs).flatten = cs ∧ ∀ cl ∈ seg cs, cl ≠ []

/-- Byte offsets of the cluster starts, from a running offset: the first
components of `grapheme_indices(true)`. -/
def clusterOffsets : Nat → List (List Char) → List Nat
  | _, [] => []
  | off, cl :: rest => off :: clusterOffsets (off + utf8Len cl) rest

/-- The index list `text.grapheme_indices(true)` iterates over. -/
def graphemeIndices (seg : List Char → List (List Char)) (text : List Char) :
    List Nat :=
  clusterOffsets 0 (seg text)

/-- The `for (idx, _) in text.grapheme_indices(true)` loop of
`prev_grapheme_boundary` (`src/parser.rs`): break at the first
`idx >= cursor`, else remember `prev = idx`. -/
def prevBoundaryLoop : List Nat → Nat → Nat → Nat
  | [], _, prev => prev
  | idx :: rest, cursor, prev =>
    if cursor ≤ idx then prev else prevBoundaryLoop rest cursor idx

/-- `prev_grapheme_boundary` (`src/parser.rs`). -/
def prevGraphemeBoundary (seg : List Char → List (List Char))
    (text : List Char) (cursor : Nat) : Nat :=
  if cursor = 0 then 0
  else prevBoundaryLoop (graphemeIndices seg text) cursor 0

/-- The `for (idx, _)` loop of `next_grapheme_boundary` (`src/parser.rs`):
return the first `idx > cursor`, if any. -/
def nextBoundaryLoop : List Nat → Nat → Option Nat
  | [], _ => none
  | idx :: rest, cursor =>
    if cursor < idx then some idx else nextBoundaryLoop rest cursor

/-- `next_grapheme_boundary` (`src/parser.rs`). -/
def nextGraphemeBoundary (seg : List Char → List (List Char))
    (text : List Char) (cursor : Nat) : Nat :=
  if utf8Len text ≤ cursor then utf8Len text
  else
    match nextBoundaryLoop (graphemeIndices seg text) cursor with
    | some idx => idx
    | none => utf8Len text

/-- Number of leading characters of `cs` whose encodings fit within `p`
bytes; converts the byte offset `p` back to a character count. At a boundary
`p = utf8Len (cs.take k)` this is exactly `k`. -/
def charsUpTo : List Char → Nat → Nat
  | [], _ => 0
  | c :: rest, p =>
    if c.utf8Size ≤ p then 1 + charsUpTo rest (p - c.utf8Size) else 0

/-- Rust `String::insert(p, ch)` on decoded text: insert `ch` at byte
offset `p` (a character boundary when the cursor invariant holds). -/
def insertAtByte (cs : List Char) (p : Nat) (ch : Char) : List Char :=
  let k := charsUpTo cs p
  cs.take k ++ ch :: cs.drop k

/-- Rust `String::drain(p..q)` on decoded text: remove the bytes between
offsets `p` and `q` (character boundaries when the cursor invariant holds). -/
def deleteByteRange (cs : List Char) (p q : Nat) : List Char :=
  cs.take (charsUpTo cs p) ++ cs.drop (charsUpTo cs q)

/-- The slice of `App` the editing and navigation methods of
`src/history.rs` act on, at byte granularity: the input text (decoded), the
byte cursor, the history selector, and the (fixed) history entries.
`lastRunCmd`/`mark_edited` effects do not touch these fields and are
modelled by the `App`-level functions above. -/
structure Editor where
  input : List Char
  cursor : Nat
  histPos : Option Nat
  history : List (List Char)

/-- The editor slice of `App::new`: empty input, cursor 0, no history
selection, with the loaded history entries. -/
def editorInit (history : List (List Char)) : Editor :=
  { input := [], cursor := 0, histPos := none, history := history }

/-- `App::insert_char` (`src/history.rs`). -/
def Editor.insertChar (seg : List Char → List (List Char)) (st : Editor)
    (ch : Char) : Editor :=
  let input2 := insertAtByte st.input st.cursor ch
  { st with
      input := input2
      cursor := nextGraphemeBoundary seg input2 st.cursor
      histPos := none }

/-- `App::delete_backward` (`src/history.rs`). -/
def Editor.deleteBackward (seg : List Char → List (List Char))
    (st : Editor) : Editor :=
  if st.cursor = 0 then st
  else
    let prev := prevGraphemeBoundary seg st.input st.cursor
    { st with
        input := deleteByteRange st.input prev st.cursor
        cursor := prev
        histPos := none }

/-- `App::delete_forward` (`src/history.rs`). -/
def Editor.deleteForward (seg : List Char → List (List Char))
    (st : Editor) : Editor :=
  if utf8Len st.input ≤ st.cursor then st
  else
    let nxt := nextGraphemeBoundary seg st.input st.cursor
    { st with
        input := deleteByteRange st.input st.cursor nxt
        histPos := none }

/-- `App::clear_input` (`src/history.rs`). -/
def Editor.clearInput (st : Editor) : Editor :=
  { st with input := [], cursor := 0, histPos := none }

/-- `App::move_cursor_home` (`src/history.rs`). -/
def Editor.moveHome (st : Editor) : Editor :=
  { st with cursor := 0 }

/-- `App::move_cursor_end` (`src/history.rs`). -/
def Editor.moveEnd (st : Editor) : Editor :=
  { st with cursor := utf8Len st.input }

/-- `App::move_cursor_left` (`src/history.rs`). -/
def Editor.moveLeft (seg : List Char → List (List Char)) (st : Editor) :
    Editor :=
  { st with cursor := prevGraphemeBoundary seg st.input st.cursor }

/-- `App::move_cursor_right` (`src/history.rs`). -/
def Editor.moveRight (seg : List Char → List (List Char)) (st : Editor) :
    Editor :=
  { st with cursor := nextGraphemeBoundary seg st.input st.cursor }

/-- `App::history_prev` (`src/history.rs`). -/
def Editor.historyPrev (st : Editor) : Editor :=
  if st.history.isEmpty then st
  else
    let nextIdx :=
      match st.histPos with
      | none => st.history.length - 1
      | some 0 => 0
      | some idx => idx - 1
    let entry := st.history.getD nextIdx []
    { st with histPos := some nextIdx, input := entry, cursor := utf8Len entry }

/-- `App::history_next` (`src/history.rs`). -/
def Editor.historyNext (st : Editor) : Editor :=
  if st.history.isEmpty then st
  else
    match st.histPos with
    | some idx =>
      if st.history.length - 1 ≤ idx then
        { st with histPos := none, input := [], cursor := 0 }
      else
        let entry := st.history.getD (idx + 1) []
        { st with histPos := some (idx + 1), input := entry, cursor := utf8Len entry }
    | none => { st with input := [], cursor := 0 }

/-- One editing or navigation operation. -/
inductive EditOp where
  | insertChar (ch : Char)
  | deleteBackward
  | deleteForward
  | clearInput
  | moveHome
  | moveEnd
  | moveLeft
  | moveRight
  | historyPrev
  | historyNext

/-- Apply one operation. -/
def applyEditOp (seg : List Char → List (List Char)) (st : Editor) :
    EditOp → Editor
  | .insertChar ch => st.insertChar seg ch
  | .deleteBackward => st.deleteBackward seg
  | .deleteForward => st.deleteForward seg
  | .clearInput => st.clearInput
  | .moveHome => st.moveHome
  | .moveEnd => st.moveEnd
  | .moveLeft => st.moveLeft seg
  | .moveRight => st.moveRight seg
  | .historyPrev => st.historyPrev
  | .historyNext => st.historyNext

/-- Apply a sequence of operations. -/
def applyEditOps (seg : List Char → List (List Char)) (st : Editor)
    (ops : List EditOp) : Editor :=
  ops.foldl (applyEditOp seg) st

/-- The degenerate grapheme segmentation in which every character is its own
cluster; it satisfies `SegSpec` and instantiates the parametric theorems. -/
def segChars (cs : List Char) : List (List Char) :=
  cs.map (fun c => [c])

/-- A UI-side event handled between a run's submission and its `Finished`
message (`main.rs` event loop): the `Started` message or a stream chunk. -/
inductive MidEvt where
  | started
  | outChunk (s : String)
  | errChunk (s : String)

/-- Handle one mid-run event (the corresponding `UiMsg` arms of the main
loop). -/
def applyMid (a : App) : MidEvt → App
  | .started => beginRun a
  | .outChunk s => appendStdoutChunk a s
  | .errChunk s => appendStderrChunk a s

/-- Handle a sequence of mid-run events. -/
def applyMids (a : App) (ms : List MidEvt) : App :=
  ms.foldl applyMid a

/-- Concrete aggregator state (pending text on both streams, both open):
fields are pendingStdout, pendingStderr, stdoutOpen, stderrOpen, done. -/
def aggStateWit : AggState :=
  ⟨"x", "y", true, true, false⟩

/-- Concrete aggregator state with pending stdout text `"a"`. -/
def aggStateCtr : AggState :=
  ⟨"a", "", true, true, false⟩

/-- `aggStateCtr` after its stdout channel closes: accumulator drained,
stdout marked not-open. -/
def aggStateCtrAfter : AggState :=
  ⟨"", "", false, true, false⟩

/-- Claim C2: `should_auto_run` returns true iff no run is in flight, an edit
timestamp is present, at least 250ms have elapsed since it, the trimmed input
is non-empty, and the input differs from the last submitted command. -/
theorem shouldAutoRun_iff (a : App) (now : Nat) :
    shouldAutoRun a now = true ↔
      (a.is_running = false ∧
        ∃ t, a.last_edit_at = some t ∧ 250 ≤ now - t ∧
          (rustTrim a.input).isEmpty = false ∧
          ∀ last, a.lastRunCmd = some last → last ≠ a.input) := by
  obtain ⟨inp, cur, hist, hp, ol, el, sl, so, se, ir, lrc, lea, ah⟩ := a
  cases ir <;> cases lea <;> cases lrc <;>
    simp only [shouldAutoRun] <;>
    simp <;> split_ifs <;> simp_all <;> omega

/-- Claim C4: a failed spawn yields exactly one `Finished` result with the
sentinel exit code `-1`, empty stdout and non-empty stderr text, and the
worker keeps processing later requests; abnormal termination or a missing
exit code also resolves to the sentinel `-1`; every request yields exactly
one `Finished` message. -/
theorem worker_spawn_failure_sentinel :
    (∀ cmd e rest,
      workerLoop ((cmd, SpawnOutcome.err e) :: rest) =
        UiMsg.started cmd ::
          UiMsg.finished
            { cmd := cmd, status := -1, stdout := "",
              stderr := "Failed to spawn: " ++ e } :: workerLoop rest ∧
      ("Failed to spawn: " ++ e) ≠ "") ∧
    resolveStatusCode (Except.error ()) = -1 ∧
    resolveStatusCode (Except.ok none) = -1 ∧
    (∀ msgs, countFinished (workerLoop msgs) = msgs.length) := by
  refine ⟨?_, rfl, rfl, ?_⟩
  · intro cmd e rest
    constructor
    · simp [workerLoop, workerHandle, runCommand]
    · intro h
      have h2 : ("Failed to spawn: " ++ e).length = ("" : String).length := by
        rw [h]
      have h3 : ("Failed to spawn: " : String).length = 17 := rfl
      have h4 : ("" : String).length = 0 := rfl
      rw [String.length_append, h3, h4] at h2
      omega
  · intro msgs
    induction msgs with
    | nil => rfl
    | cons p rest ih =>
      obtain ⟨cmd, o⟩ := p
      simp [workerLoop, workerHandle, countFinished, List.filter] at ih ⊢
      omega

theorem chunksAux_flatten (cs : List Char) (acc : List Char) :
    (chunksAux cs acc).flatten = acc.reverse ++ cs := by
  induction cs generalizing acc with
  | nil =>
    by_cases h : acc.isEmpty
    · rw [List.isEmpty_iff] at h
      simp [chunksAux, h]
    · rw [List.isEmpty_iff] at h
      simp [chunksAux, h]
  | cons c rest ih =>
    by_cases h : c = '\n'
    · subst h
      simp [chunksAux, ih]
    · simp [chunksAux, h, ih]

theorem chunksAux_shape (cs : List Char) :
    ∀ acc, '\n' ∉ acc →
      ∀ ch ∈ chunksAux cs acc, ch ≠ [] ∧ '\n' ∉ ch.dropLast := by
  induction cs with
  | nil =>
    intro acc hacc ch hch
    by_cases h : acc.isEmpty
    · simp [chunksAux, h] at hch
    · rw [List.isEmpty_iff] at h
      simp [chunksAux, h] at hch
      subst hch
      refine ⟨by simpa using h, ?_⟩
      intro hmem
      exact hacc (by simpa using (List.dropLast_sublist _).mem hmem)
  | cons c rest ih =>
    intro acc hacc ch hch
    by_cases h : c = '\n'
    · subst h
      simp [chunksAux] at hch
      rcases hch with hch | hch
      · subst hch
        refine ⟨by simp, ?_⟩
        rw [List.dropLast_concat]
        simpa using hacc
      · exact ih [] (by simp) ch hch
    · simp only [chunksAux, if_neg h] at hch
      exact ih (c :: acc) (by simp [hacc, Ne.symm h]) ch hch

theorem chunksAux_dropLast_newline (cs : List Char) :
    ∀ acc, ∀ ch ∈ (chunksAux cs acc).dropLast, ch.getLast? = some '\n' := by
  induction cs with
  | nil =>
    intro acc ch hch
    by_cases h : acc.isEmpty <;> simp [chunksAux, h] at hch
  | cons c rest ih =>
    intro acc ch hch
    by_cases h : c = '\n'
    · subst h
      rw [show chunksAux ('\n' :: rest) acc =
            (acc.reverse ++ ['\n']) :: chunksAux rest [] by
          simp [chunksAux]] at hch
      cases hrest : chunksAux rest [] with
      | nil => simp [hrest] at hch
      | cons y ys =>
        rw [hrest] at hch
        simp only [List.dropLast_cons₂, List.mem_cons] at hch
        rcases hch with hch | hch
        · subst hch
          exact List.getLast?_concat _
        · have := ih [] ch
          rw [hrest] at this
          exact this (by simpa using hch)
    · simp only [chunksAux, if_neg h] at hch
      exact ih (c :: acc) ch hch

/-- Counterexample to claim C5 as stated: on the stream `"a\r\n"` the Stream
Reader delivers the single chunk `"a\r\n"` — the trailing newline stays in
the delivered chunk and the `\r` is not stripped — and the concatenation of
delivered chunks is the original stream `"a\r\n"`, not the `\r`-stripped
`"a\n"` the claim requires. -/
theorem streamPipe_keeps_crlf_counterexample :
    streamPipeChunks ['a', '\r', '\n'] = [['a', '\r', '\n']] ∧
    streamLog ['a', '\r', '\n'] = ['a', '\r', '\n'] ∧
    (['a', '\r', '\n'] : List Char) ≠ ['a', '\n'] ∧
    '\n' ∈ (['a', '\r', '\n'] : List Char) ∧
    '\r' ∈ (['a', '\r', '\n'] : List Char) := by
  refine ⟨rfl, rfl, by decide, by decide, by decide⟩

/-- Claim C5 (amended): the Stream Reader chunks on `\n` keeping the newline
(and any preceding `\r`) inside the delivered chunk, so concatenating the
delivered chunks — and hence the session log — reproduces the original
stream exactly; chunks are non-empty, contain `\n` only as their last
character, every chunk but the last ends with `\n`, and content after the
final newline is flushed as a final chunk. (The `\n`/`\r` stripping the
claim describes happens downstream, in `App::append_chunk`.) -/
theorem streamPipe_exact_reproduction (stream : List Char) :
    streamLog stream = stream ∧
    (streamPipeChunks stream).flatten = stream ∧
    (∀ ch ∈ streamPipeChunks stream, ch ≠ [] ∧ '\n' ∉ ch.dropLast) ∧
    (∀ ch ∈ (streamPipeChunks stream).dropLast, ch.getLast? = some '\n') := by
  refine ⟨?_, ?_, ?_, ?_⟩
  · simpa [streamLog, streamPipeChunks] using chunksAux_flatten stream []
  · simpa [streamPipeChunks] using chunksAux_flatten stream []
  · exact chunksAux_shape stream [] (by simp)
  · exact chunksAux_dropLast_newline stream []

theorem appendHistoryList_length (h : List String) (e : String)
    (hlen : h.length ≤ HISTORY_LIMIT) :
    (appendHistoryList h e).length ≤ HISTORY_LIMIT := by
  unfold appendHistoryList
  split
  · exact hlen
  · dsimp only
    split
    · rw [List.length_drop]
      omega
    · rename_i hle
      simp only [List.length_append, List.length_singleton] at hle ⊢
      omega

theorem appendHistoryList_chain (h : List String) (e : String)
    (hch : h.Chain' (· ≠ ·)) :
    (appendHistoryList h e).Chain' (· ≠ ·) := by
  unfold appendHistoryList
  split
  · exact hch
  · rename_i hne
    have happ : (h ++ [e]).Chain' (· ≠ ·) := by
      rw [List.chain'_append]
      refine ⟨hch, List.chain'_singleton e, ?_⟩
      intro x hx y hy
      simp only [List.head?_cons, Option.mem_some_iff] at hy
      subst hy
      intro hxy
      subst hxy
      exact hne hx
    dsimp only
    split
    · exact happ.drop _
    · exact happ

/-- Claim C8: starting from a history of length at most 500 with no two
identical adjacent entries, any sequence of history appends keeps the length
at most 500 (oldest entries evicted first) and keeps adjacent entries
distinct. -/
theorem history_bound_invariant (h : List String) (entries : List String)
    (hlen : h.length ≤ HISTORY_LIMIT) (hch : h.Chain' (· ≠ ·)) :
    (entries.foldl appendHistoryList h).length ≤ HISTORY_LIMIT ∧
    (entries.foldl appendHistoryList h).Chain' (· ≠ ·) := by
  induction entries generalizing h with
  | nil => exact ⟨hlen, hch⟩
  | cons e rest ih =>
    exact ih _ (appendHistoryList_length _ _ hlen) (appendHistoryList_chain _ _ hch)

/-- Witness for claim C8 at a concrete input. -/
theorem history_bound_invariant_witness :
    ([] : List String).length ≤ HISTORY_LIMIT ∧
    ([] : List String).Chain' (· ≠ ·) ∧
    ((["a", "a", "b"].foldl appendHistoryList []).length ≤ HISTORY_LIMIT ∧
      (["a", "a", "b"].foldl appendHistoryList []).Chain' (· ≠ ·)) :=
  ⟨by decide, by decide,
    history_bound_invariant [] ["a", "a", "b"] (by decide) (by decide)⟩

theorem appendHistory_is_running (a : App) (e : String) :
    (appendHistory a e).is_running = a.is_running := by
  unfold appendHistory
  split <;> rfl

theorem finishRun_is_running (a : App) (res : ExecResult) :
    (finishRun a res).is_running = false := by
  unfold finishRun
  dsimp only
  split_ifs <;> simp [appendHistory_is_running]

/-- Claim C9: a command that is blank after trimming is never submitted
(`prepare_run` returns false and changes nothing); a non-blank submission
clears the edit timestamp, records the command as last-submitted, and the
run is marked in flight by the `Started` handler (`begin_run`) until the
`Finished` handler (`finish_run`) clears it. -/
theorem prepare_run_submission (a : App) (cmd : String) (manual : Bool) :
    ((rustTrim cmd).isEmpty = true → prepareRun a cmd manual = (a, false)) ∧
    ((rustTrim cmd).isEmpty = false →
      (prepareRun a cmd manual).2 = true ∧
      (prepareRun a cmd manual).1.last_edit_at = none ∧
      (prepareRun a cmd manual).1.lastRunCmd = some cmd ∧
      (beginRun (prepareRun a cmd manual).1).is_running = true) ∧
    (∀ res, (finishRun a res).is_running = false) := by
  refine ⟨?_, ?_, ?_⟩
  · intro h
    simp [prepareRun, h]
  · intro h
    simp [prepareRun, h, beginRun]
  · intro res
    exact finishRun_is_running a res

/-- Witness for claim C9 at concrete inputs. -/
theorem prepare_run_submission_witness :
    ((rustTrim " ").isEmpty = true ∧ prepareRun (appNew []) " " true = (appNew [], false)) ∧
    ((rustTrim "ls").isEmpty = false ∧
      (prepareRun (appNew []) "ls" true).2 = true ∧
      (prepareRun (appNew []) "ls" true).1.last_edit_at = none ∧
      (prepareRun (appNew []) "ls" true).1.lastRunCmd = some "ls" ∧
      (beginRun (prepareRun (appNew []) "ls" true).1).is_running = true) :=
  ⟨⟨by decide, (prepare_run_submission (appNew []) " " true).1 (by decide)⟩,
    by
      have h := (prepare_run_submission (appNew []) "ls" true).2.1 (by decide)
      exact ⟨by decide, h.1, h.2.1, h.2.2.1, h.2.2.2⟩⟩

theorem appendHistory_history (a : App) (e : String) :
    (appendHistory a e).history = appendHistoryList a.history e := by
  by_cases h : a.history.getLast? = some e
  · simp [appendHistory, appendHistoryList, h]
  · simp [appendHistory, h]

theorem appendHistoryList_getLast (h : List String) (e : String) :
    (appendHistoryList h e).getLast? = some e := by
  unfold appendHistoryList
  split
  · assumption
  · dsimp only
    split
    · rw [List.getLast?_drop, if_neg]
      · exact List.getLast?_concat _
      · have hlen : (h ++ [e]).length = h.length + 1 := by simp
        simp only [HISTORY_LIMIT] at *
        omega
    · exact List.getLast?_concat _

theorem flushPartials_fields (a : App) :
    (flushPartials a).history = a.history ∧
    (flushPartials a).append_history_on_finish = a.append_history_on_finish := by
  unfold flushPartials
  dsimp only
  split_ifs <;> exact ⟨rfl, rfl⟩

theorem finishRun_history (b : App) (res : ExecResult) :
    (finishRun b res).history =
      if b.append_history_on_finish && !(rustTrim res.cmd).isEmpty then
        appendHistoryList b.history res.cmd
      else b.history := by
  have hf := flushPartials_fields b
  unfold finishRun
  dsimp only
  split_ifs <;>
    simp_all [appendHistory_history]

theorem applyMid_history_flag (a : App) (m : MidEvt) :
    (applyMid a m).history = a.history ∧
    (applyMid a m).append_history_on_finish = a.append_history_on_finish := by
  cases m <;>
    simp [applyMid, beginRun, appendStdoutChunk, appendStderrChunk]

theorem applyMids_history_flag (ms : List MidEvt) (a : App) :
    (applyMids a ms).history = a.history ∧
    (applyMids a ms).append_history_on_finish = a.append_history_on_finish := by
  induction ms generalizing a with
  | nil => exact ⟨rfl, rfl⟩
  | cons m rest ih =>
    have h1 := applyMid_history_flag a m
    have h2 := ih (applyMid a m)
    exact ⟨h2.1.trans h1.1, h2.2.trans h1.2⟩

/-- Claim C7: for a completed run of a non-blank command — submission via
`prepare_run`, any interleaving of `Started`/chunk events, then the
`Finished` handler — a manual submission appends the command to history
(which then ends with that command), and an automatic submission leaves
history unchanged. -/
theorem manual_submission_history (a : App) (cmd : String) (manual : Bool)
    (res : ExecResult) (mids : List MidEvt)
    (hcmd : (rustTrim cmd).isEmpty = false) (hres : res.cmd = cmd) :
    (manual = true →
      (finishRun (applyMids (prepareRun a cmd manual).1 mids) res).history =
        appendHistoryList a.history cmd ∧
      (finishRun (applyMids (prepareRun a cmd manual).1 mids) res).history.getLast? =
        some cmd) ∧
    (manual = false →
      (finishRun (applyMids (prepareRun a cmd manual).1 mids) res).history =
        a.history) := by
  have hprep : (prepareRun a cmd manual).1.history = a.history ∧
      (prepareRun a cmd manual).1.append_history_on_finish = manual := by
    simp [prepareRun, hcmd]
  have hmid := applyMids_history_flag mids (prepareRun a cmd manual).1
  have hfin := finishRun_history (applyMids (prepareRun a cmd manual).1 mids) res
  rw [hmid.2, hprep.2, hres, hcmd] at hfin
  constructor
  · intro hm
    subst hm
    simp at hfin
    rw [hmid.1, hprep.1] at hfin
    exact ⟨hfin, hfin ▸ appendHistoryList_getLast a.history cmd⟩
  · intro hm
    subst hm
    simp at hfin
    rw [hmid.1, hprep.1] at hfin
    exact hfin

/-- Witness for claim C7 at concrete inputs (one manual, one automatic). -/
theorem manual_submission_history_witness :
    ((rustTrim "ls").isEmpty = false ∧
      (ExecResult.mk "ls" 0 "hi\n" "").cmd = "ls" ∧
      (finishRun (applyMids (prepareRun (appNew []) "ls" true).1 [MidEvt.started])
        (ExecResult.mk "ls" 0 "hi\n" "")).history = appendHistoryList [] "ls") ∧
    ((finishRun (applyMids (prepareRun (appNew []) "ls" false).1 [MidEvt.started])
        (ExecResult.mk "ls" 0 "hi\n" "")).history = []) :=
  ⟨⟨by decide, rfl,
    ((manual_submission_history (appNew []) "ls" true (ExecResult.mk "ls" 0 "hi\n" "")
      [MidEvt.started] (by decide) rfl).1 rfl).1⟩,
    (manual_submission_history (appNew []) "ls" false (ExecResult.mk "ls" 0 "hi\n" "")
      [MidEvt.started] (by decide) rfl).2 rfl⟩

theorem emitOutConcat_append (l1 l2 : List AggEmit) :
    emitOutConcat (l1 ++ l2) = emitOutConcat l1 ++ emitOutConcat l2 := by
  induction l1 with
  | nil => simp [emitOutConcat]
  | cons e rest ih => cases e <;> simp [emitOutConcat, ih, String.append_assoc]

theorem emitErrConcat_append (l1 l2 : List AggEmit) :
    emitErrConcat (l1 ++ l2) = emitErrConcat l1 ++ emitErrConcat l2 := by
  induction l1 with
  | nil => simp [emitErrConcat]
  | cons e rest ih => cases e <;> simp [emitErrConcat, ih, String.append_assoc]

theorem chunkOutConcat_cons (e : AggEvent) (l : List AggEvent) :
    chunkOutConcat (e :: l) = outPayload e ++ chunkOutConcat l := by
  cases e <;> simp [chunkOutConcat, outPayload]

theorem chunkErrConcat_cons (e : AggEvent) (l : List AggEvent) :
    chunkErrConcat (e :: l) = errPayload e ++ chunkErrConcat l := by
  cases e <;> simp [chunkErrConcat, errPayload]

theorem aggFlush_spec (s : AggState) :
    emitOutConcat (aggFlush s).2 = s.pendingStdout ∧
    emitErrConcat (aggFlush s).2 = s.pendingStderr ∧
    (aggFlush s).1.pendingStdout = "" ∧
    (aggFlush s).1.pendingStderr = "" ∧
    (aggFlush s).1.stdoutOpen = s.stdoutOpen ∧
    (aggFlush s).1.stderrOpen = s.stderrOpen ∧
    ((aggFlush s).1.done = true →
      s.done = true ∨ (s.stdoutOpen = false ∧ s.stderrOpen = false)) := by
  obtain ⟨po, pe, oo, eo, dn⟩ := s
  by_cases hpo : po = "" <;> by_cases hpe : pe = "" <;>
    simp [aggFlush, hpo, hpe, emitOutConcat, emitErrConcat, String.isEmpty_iff] <;>
      split_ifs <;> simp_all

theorem aggStep_spec (s : AggState) (e : AggEvent) (rest : List AggEvent)
    (hinv : AggInv s) (hwf : wfAux s.stdoutOpen s.stderrOpen (e :: rest) = true) :
    emitOutConcat (aggStep s e).2 ++ (aggStep s e).1.pendingStdout =
      s.pendingStdout ++ outPayload e ∧
    emitErrConcat (aggStep s e).2 ++ (aggStep s e).1.pendingStderr =
      s.pendingStderr ++ errPayload e ∧
    AggInv (aggStep s e).1 ∧
    wfAux (aggStep s e).1.stdoutOpen (aggStep s e).1.stderrOpen rest = true := by
  by_cases hd : s.done = true
  · obtain ⟨ho, he, hpo, hpe⟩ := hinv hd
    have hstep : aggStep s e = (s, []) := by simp [aggStep, hd]
    cases e with
    | outChunk c =>
      rw [wfAux, ho] at hwf
      simp at hwf
    | errChunk c =>
      rw [wfAux, he] at hwf
      simp at hwf
    | outClose =>
      rw [hstep, wfAux] at *
      refine ⟨by simp [emitOutConcat, outPayload],
        by simp [emitErrConcat, errPayload], hinv, ?_⟩
      rw [ho]
      exact hwf
    | errClose =>
      rw [hstep, wfAux] at *
      refine ⟨by simp [emitOutConcat, outPayload],
        by simp [emitErrConcat, errPayload], hinv, ?_⟩
      rw [he]
      exact hwf
    | tick =>
      rw [hstep, wfAux] at *
      exact ⟨by simp [emitOutConcat, outPayload],
        by simp [emitErrConcat, errPayload], hinv, hwf⟩
  · have hd2 : s.done = false := by simpa using hd
    cases e with
    | outChunk c =>
      have hstep : aggStep s (AggEvent.outChunk c) =
          ({ s with pendingStdout := s.pendingStdout ++ c }, []) := by
        simp [aggStep, hd2]
      rw [wfAux] at hwf
      simp only [Bool.and_eq_true] at hwf
      rw [hstep]
      refine ⟨by simp [emitOutConcat, outPayload], ?_, ?_, hwf.2⟩
      · simp [emitErrConcat, errPayload]
      · intro h
        simp [hd2] at h
    | errChunk c =>
      have hstep : aggStep s (AggEvent.errChunk c) =
          ({ s with pendingStderr := s.pendingStderr ++ c }, []) := by
        simp [aggStep, hd2]
      rw [wfAux] at hwf
      simp only [Bool.and_eq_true] at hwf
      rw [hstep]
      refine ⟨by simp [emitOutConcat, outPayload], ?_, ?_, hwf.2⟩
      · simp [emitErrConcat, errPayload]
      · intro h
        simp [hd2] at h
    | outClose =>
      have hstep : aggStep s AggEvent.outClose =
          aggFlush { s with stdoutOpen := false } := by
        simp [aggStep, hd2]
      rw [wfAux] at hwf
      rw [hstep]
      have hf := aggFlush_spec { s with stdoutOpen := false }
      refine ⟨?_, ?_, ?_, ?_⟩
      · rw [hf.1, hf.2.2.1]
        simp [outPayload]
      · rw [hf.2.1, hf.2.2.2.1]
        simp [errPayload]
      · intro h
        rcases hf.2.2.2.2.2.2 h with hcase | hcase
        · simp [hd2] at hcase
        · exact ⟨hf.2.2.2.2.1.trans hcase.1,
            hf.2.2.2.2.2.1.trans hcase.2, hf.2.2.1, hf.2.2.2.1⟩
      · rw [hf.2.2.2.2.1, hf.2.2.2.2.2.1]
        exact hwf
    | errClose =>
      have hstep : aggStep s AggEvent.errClose =
          aggFlush { s with stderrOpen := false } := by
        simp [aggStep, hd2]
      rw [wfAux] at hwf
      rw [hstep]
      have hf := aggFlush_spec { s with stderrOpen := false }
      refine ⟨?_, ?_, ?_, ?_⟩
      · rw [hf.1, hf.2.2.1]
        simp [outPayload]
      · rw [hf.2.1, hf.2.2.2.1]
        simp [errPayload]
      · intro h
        rcases hf.2.2.2.2.2.2 h with hcase | hcase
        · simp [hd2] at hcase
        · exact ⟨hf.2.2.2.2.1.trans hcase.1,
            hf.2.2.2.2.2.1.trans hcase.2, hf.2.2.1, hf.2.2.2.1⟩
      · rw [hf.2.2.2.2.1, hf.2.2.2.2.2.1]
        exact hwf
    | tick =>
      have hstep : aggStep s AggEvent.tick = aggFlush s := by
        simp [aggStep, hd2]
      rw [wfAux] at hwf
      rw [hstep]
      have hf := aggFlush_spec s
      refine ⟨?_, ?_, ?_, ?_⟩
      · rw [hf.1, hf.2.2.1]
        simp [outPayload]
      · rw [hf.2.1, hf.2.2.2.1]
        simp [errPayload]
      · intro h
        rcases hf.2.2.2.2.2.2 h with hcase | hcase
        · simp [hd2] at hcase
        · exact ⟨hf.2.2.2.2.1.trans hcase.1,
            hf.2.2.2.2.2.1.trans hcase.2, hf.2.2.1, hf.2.2.2.1⟩
      · rw [hf.2.2.2.2.1, hf.2.2.2.2.2.1]
        exact hwf

theorem aggRunAux_spec (evts : List AggEvent) :
    ∀ s, AggInv s → wfAux s.stdoutOpen s.stderrOpen evts = true →
      emitOutConcat (aggRunAux s evts).2 ++ (aggRunAux s evts).1.pendingStdout =
        s.pendingStdout ++ chunkOutConcat evts ∧
      emitErrConcat (aggRunAux s evts).2 ++ (aggRunAux s evts).1.pendingStderr =
        s.pendingStderr ++ chunkErrConcat evts ∧
      AggInv (aggRunAux s evts).1 := by
  induction evts with
  | nil =>
    intro s hinv _
    exact ⟨by simp [aggRunAux, emitOutConcat, chunkOutConcat],
      by simp [aggRunAux, emitErrConcat, chunkErrConcat], hinv⟩
  | cons e rest ih =>
    intro s hinv hwf
    have hs := aggStep_spec s e rest hinv hwf
    have hr := ih (aggStep s e).1 hs.2.2.1 hs.2.2.2
    have hunfold : aggRunAux s (e :: rest) =
        ((aggRunAux (aggStep s e).1 rest).1,
          (aggStep s e).2 ++ (aggRunAux (aggStep s e).1 rest).2) := rfl
    rw [hunfold]
    refine ⟨?_, ?_, hr.2.2⟩
    · dsimp only
      rw [emitOutConcat_append, String.append_assoc, hr.1,
        ← String.append_assoc, hs.1, chunkOutConcat_cons, String.append_assoc]
    · dsimp only
      rw [emitErrConcat_append, String.append_assoc, hr.2.1,
        ← String.append_assoc, hs.2.1, chunkErrConcat_cons, String.append_assoc]

theorem aggFinal_concat (s : AggState) :
    emitOutConcat (aggFinal s) = s.pendingStdout ∧
    emitErrConcat (aggFinal s) = s.pendingStderr := by
  by_cases h1 : s.pendingStdout = "" <;> by_cases h2 : s.pendingStderr = "" <;>
    simp [aggFinal, h1, h2, emitOutConcat, emitErrConcat, String.isEmpty_iff]

theorem aggFlush_counts (s : AggState) :
    countOutEvents (aggFlush s).2 ≤ 1 ∧ countErrEvents (aggFlush s).2 ≤ 1 := by
  by_cases h1 : s.pendingStdout.isEmpty <;> by_cases h2 : s.pendingStderr.isEmpty <;>
    simp [aggFlush, h1, h2, countOutEvents, countErrEvents, List.filter]

theorem aggStep_counts (s : AggState) (e : AggEvent) :
    countOutEvents (aggStep s e).2 ≤ 1 ∧ countErrEvents (aggStep s e).2 ≤ 1 := by
  by_cases hd : s.done = true
  · simp [aggStep, hd, countOutEvents, countErrEvents]
  · have hd2 : s.done = false := by simpa using hd
    cases e with
    | outChunk c => simp [aggStep, hd2, countOutEvents, countErrEvents]
    | errChunk c => simp [aggStep, hd2, countOutEvents, countErrEvents]
    | outClose =>
      have h := aggFlush_counts { s with stdoutOpen := false }
      simpa [aggStep, hd2] using h
    | errClose =>
      have h := aggFlush_counts { s with stderrOpen := false }
      simpa [aggStep, hd2] using h
    | tick =>
      have h := aggFlush_counts s
      simpa [aggStep, hd2] using h

theorem aggStep_chunk_silent (s : AggState) (c : String) :
    (aggStep s (AggEvent.outChunk c)).2 = [] ∧
    (aggStep s (AggEvent.errChunk c)).2 = [] := by
  by_cases hd : s.done = true
  · simp [aggStep, hd]
  · have hd2 : s.done = false := by simpa using hd
    simp [aggStep, hd2]

/-- Claim C3 (amended): for every well-formed observed event sequence, the
concatenation of emitted stdout (resp. stderr) events equals the
concatenation of received stdout (resp. stderr) chunks — no data is lost at
stream close — and the loop terminates only with both streams closed and
both accumulators empty; each loop iteration emits at most one stdout and
one stderr event, and an iteration that merely receives a chunk emits
nothing, so under sustained output (streams open) at most one stdout and
one stderr event are emitted per tick window. (As stated the claim fails:
when a stream closes, the code flushes in that same iteration, so a window
in which a close occurs can see a second event for a stream — see the
counterexample.) -/
theorem aggregator_no_loss_and_batching (evts : List AggEvent)
    (hwf : wfTrace evts = true) :
    (emitOutConcat (aggregateStreams evts) = chunkOutConcat evts ∧
      emitErrConcat (aggregateStreams evts) = chunkErrConcat evts) ∧
    AggInv (aggRunAux aggInit evts).1 ∧
    (∀ s e, countOutEvents (aggStep s e).2 ≤ 1 ∧
      countErrEvents (aggStep s e).2 ≤ 1) ∧
    (∀ s c, (aggStep s (AggEvent.outChunk c)).2 = [] ∧
      (aggStep s (AggEvent.errChunk c)).2 = []) := by
  have hinit : AggInv aggInit := by
    intro h
    simp [aggInit] at h
  have hrun := aggRunAux_spec evts aggInit hinit hwf
  have hagg : aggregateStreams evts =
      (aggRunAux aggInit evts).2 ++ aggFinal (aggRunAux aggInit evts).1 := rfl
  refine ⟨⟨?_, ?_⟩, hrun.2.2, fun s e => aggStep_counts s e,
    fun s c => aggStep_chunk_silent s c⟩
  · rw [hagg, emitOutConcat_append, (aggFinal_concat _).1, hrun.1]
    exact String.empty_append _
  · rw [hagg, emitErrConcat_append, (aggFinal_concat _).2, hrun.2.1]
    exact String.empty_append _

/-- Witness for claim C3 at a concrete trace. -/
theorem aggregator_no_loss_and_batching_witness :
    wfTrace [AggEvent.outChunk "a", AggEvent.tick, AggEvent.errChunk "b",
      AggEvent.outClose, AggEvent.errClose] = true ∧
    (emitOutConcat (aggregateStreams [AggEvent.outChunk "a", AggEvent.tick,
        AggEvent.errChunk "b", AggEvent.outClose, AggEvent.errClose]) =
      chunkOutConcat [AggEvent.outChunk "a", AggEvent.tick,
        AggEvent.errChunk "b", AggEvent.outClose, AggEvent.errClose] ∧
      emitErrConcat (aggregateStreams [AggEvent.outChunk "a", AggEvent.tick,
        AggEvent.errChunk "b", AggEvent.outClose, AggEvent.errClose]) =
      chunkErrConcat [AggEvent.outChunk "a", AggEvent.tick,
        AggEvent.errChunk "b", AggEvent.outClose, AggEvent.errClose]) ∧
    AggInv (aggRunAux aggInit [AggEvent.outChunk "a", AggEvent.tick,
      AggEvent.errChunk "b", AggEvent.outClose, AggEvent.errClose]).1 ∧
    (∀ s e, countOutEvents (aggStep s e).2 ≤ 1 ∧
      countErrEvents (aggStep s e).2 ≤ 1) ∧
    (∀ s c, (aggStep s (AggEvent.outChunk c)).2 = [] ∧
      (aggStep s (AggEvent.errChunk c)).2 = []) :=
  ⟨by decide,
    aggregator_no_loss_and_batching [AggEvent.outChunk "a", AggEvent.tick,
      AggEvent.errChunk "b", AggEvent.outClose, AggEvent.errClose] (by decide)⟩

/-- Counterexample to the per-tick-window bound of claim C3 as stated: a
well-formed trace containing no tick at all — hence lying inside a single
tick window — on which the aggregator emits two stdout events (one at each
channel close). -/
theorem aggregator_two_stdout_events_one_window :
    aggregateStreams [AggEvent.outChunk "a", AggEvent.errClose,
        AggEvent.outChunk "b", AggEvent.outClose] =
      [AggEmit.outEvt "a", AggEmit.outEvt "b"] ∧
    countOutEvents (aggregateStreams [AggEvent.outChunk "a", AggEvent.errClose,
        AggEvent.outChunk "b", AggEvent.outClose]) = 2 ∧
    AggEvent.tick ∉ [AggEvent.outChunk "a", AggEvent.errClose,
        AggEvent.outChunk "b", AggEvent.outClose] ∧
    wfTrace [AggEvent.outChunk "a", AggEvent.errClose,
        AggEvent.outChunk "b", AggEvent.outClose] = true := by
  refine ⟨rfl, rfl, by decide, by decide⟩

/-- Claim C6 (amended): when an input channel closes, the aggregator marks
that stream not-open and runs the emission phase of that same iteration:
any already-pending text for the stream is delivered in the close step
itself (the accumulator is left empty), not on a later tick. -/
theorem aggregator_close_marks_and_flushes (s : AggState)
    (hd : s.done = false) :
    ((aggStep s AggEvent.outClose).1.stdoutOpen = false ∧
      (aggStep s AggEvent.outClose).1.pendingStdout = "" ∧
      (s.pendingStdout ≠ "" →
        AggEmit.outEvt s.pendingStdout ∈ (aggStep s AggEvent.outClose).2)) ∧
    ((aggStep s AggEvent.errClose).1.stderrOpen = false ∧
      (aggStep s AggEvent.errClose).1.pendingStderr = "" ∧
      (s.pendingStderr ≠ "" →
        AggEmit.errEvt s.pendingStderr ∈ (aggStep s AggEvent.errClose).2)) := by
  have hso : aggStep s AggEvent.outClose =
      aggFlush { s with stdoutOpen := false } := by simp [aggStep, hd]
  have hse : aggStep s AggEvent.errClose =
      aggFlush { s with stderrOpen := false } := by simp [aggStep, hd]
  rw [hso, hse]
  constructor
  · refine ⟨(aggFlush_spec _).2.2.2.2.1, (aggFlush_spec _).2.2.1, ?_⟩
    intro hne
    simp [aggFlush, String.isEmpty_iff, hne]
  · refine ⟨(aggFlush_spec _).2.2.2.2.2.1, (aggFlush_spec _).2.2.2.1, ?_⟩
    intro hne
    simp [aggFlush, String.isEmpty_iff, hne]

/-- Witness for claim C6 at a concrete state. -/
theorem aggregator_close_marks_and_flushes_witness :
    aggStateWit.done = false ∧
    (((aggStep aggStateWit AggEvent.outClose).1.stdoutOpen = false ∧
      (aggStep aggStateWit AggEvent.outClose).1.pendingStdout = "" ∧
      (aggStateWit.pendingStdout ≠ "" →
        AggEmit.outEvt aggStateWit.pendingStdout ∈
          (aggStep aggStateWit AggEvent.outClose).2)) ∧
     ((aggStep aggStateWit AggEvent.errClose).1.stderrOpen = false ∧
      (aggStep aggStateWit AggEvent.errClose).1.pendingStderr = "" ∧
      (aggStateWit.pendingStderr ≠ "" →
        AggEmit.errEvt aggStateWit.pendingStderr ∈
          (aggStep aggStateWit AggEvent.errClose).2))) :=
  ⟨rfl, aggregator_close_marks_and_flushes aggStateWit rfl⟩

/-- Counterexample to claim C6 as stated: with pending stdout text `"a"`,
the step that observes the stdout channel close emits the `StdoutChunk "a"`
event in that very step (the emission list is non-empty), instead of
waiting for a subsequent tick. -/
theorem aggregator_close_emits_same_step :
    aggStep aggStateCtr AggEvent.outClose =
      (aggStateCtrAfter, [AggEmit.outEvt "a"]) ∧
    ([AggEmit.outEvt "a"] : List AggEmit) ≠ [] := by
  refine ⟨rfl, by decide⟩

theorem utf8Len_append (l1 l2 : List Char) :
    utf8Len (l1 ++ l2) = utf8Len l1 + utf8Len l2 := by
  simp [utf8Len]

theorem utf8Len_take_le (cs : List Char) (k : Nat) :
    utf8Len (cs.take k) ≤ utf8Len cs := by
  conv_rhs => rw [← List.take_append_drop k cs]
  rw [utf8Len_append]
  omega

theorem isBoundary_zero (cs : List Char) : IsBoundary cs 0 :=
  ⟨0, by simp, by simp [utf8Len]⟩

theorem isBoundary_len (cs : List Char) : IsBoundary cs (utf8Len cs) :=
  ⟨cs.length, Nat.le_refl _, by simp⟩

theorem isBoundary_le (cs : List Char) (p : Nat) (h : IsBoundary cs p) :
    p ≤ utf8Len cs := by
  obtain ⟨k, hk, rfl⟩ := h
  exact utf8Len_take_le cs k

theorem charsUpTo_boundary (cs : List Char) (k : Nat) (hk : k ≤ cs.length) :
    charsUpTo cs (utf8Len (cs.take k)) = k := by
  induction cs generalizing k with
  | nil =>
    simp at hk
    subst hk
    simp [charsUpTo]
  | cons c rest ih =>
    cases k with
    | zero =>
      have hpos := Char.utf8Size_pos c
      simp only [List.take_zero, utf8Len, List.map_nil, List.sum_nil, charsUpTo]
      rw [if_neg (by omega)]
    | succ k2 =>
      simp only [List.take_succ_cons, charsUpTo] at *
      have heq : utf8Len (c :: rest.take k2) = c.utf8Size + utf8Len (rest.take k2) := by
        simp [utf8Len]
      rw [heq, if_pos (by omega)]
      have : c.utf8Size + utf8Len (rest.take k2) - c.utf8Size = utf8Len (rest.take k2) := by
        omega
      rw [this, ih k2 (by simpa using hk)]
      omega

theorem isBoundary_take_append (cs : List Char) (tail2 : List Char) (k : Nat)
    (hk : k ≤ cs.length) :
    IsBoundary (cs.take k ++ tail2) (utf8Len (cs.take k)) := by
  have hlen : (cs.take k).length = k := by
    rw [List.length_take]
    omega
  refine ⟨k, ?_, ?_⟩
  · rw [List.length_append, hlen]
    omega
  · conv_lhs => rw [show utf8Len (cs.take k) =
      utf8Len ((cs.take k ++ tail2).take (cs.take k).length) by
        rw [List.take_left]]
    rw [hlen]

theorem insertAtByte_boundary (cs : List Char) (p : Nat) (ch : Char)
    (hb : IsBoundary cs p) : IsBoundary (insertAtByte cs p ch) p := by
  obtain ⟨k, hk, rfl⟩ := hb
  unfold insertAtByte
  rw [charsUpTo_boundary cs k hk]
  exact isBoundary_take_append cs (ch :: cs.drop k) k hk

theorem deleteByteRange_boundary (cs : List Char) (p q : Nat)
    (hb : IsBoundary cs p) : IsBoundary (deleteByteRange cs p q) p := by
  obtain ⟨k, hk, rfl⟩ := hb
  unfold deleteByteRange
  rw [charsUpTo_boundary cs k hk]
  exact isBoundary_take_append cs (cs.drop (charsUpTo cs q)) k hk

theorem clusterOffsets_mem (cls : List (List Char)) :
    ∀ off x, x ∈ clusterOffsets off cls →
      ∃ cls1 cls2, cls = cls1 ++ cls2 ∧ x = off + utf8Len cls1.flatten := by
  induction cls with
  | nil =>
    intro off x hx
    simp [clusterOffsets] at hx
  | cons cl rest ih =>
    intro off x hx
    simp only [clusterOffsets, List.mem_cons] at hx
    rcases hx with hx | hx
    · exact ⟨[], cl :: rest, rfl, by simp [hx, utf8Len]⟩
    · obtain ⟨c1, c2, hsplit, hval⟩ := ih (off + utf8Len cl) x hx
      refine ⟨cl :: c1, c2, by rw [hsplit]; rfl, ?_⟩
      rw [hval]
      simp [utf8Len_append]
      omega

theorem graphemeIndices_boundary (seg : List Char → List (List Char))
    (hseg : SegSpec seg) (text : List Char) (x : Nat)
    (hx : x ∈ graphemeIndices seg text) : IsBoundary text x := by
  obtain ⟨c1, c2, hsplit, hval⟩ := clusterOffsets_mem (seg text) 0 x hx
  have hflat : text = c1.flatten ++ c2.flatten := by
    rw [← List.flatten_append, ← hsplit, (hseg text).1]
  refine ⟨c1.flatten.length, ?_, ?_⟩
  · rw [hflat, List.length_append]
    omega
  · rw [hval, Nat.zero_add]
    conv_rhs => rw [hflat, List.take_left]

theorem nextBoundaryLoop_mem (l : List Nat) (cursor idx : Nat)
    (h : nextBoundaryLoop l cursor = some idx) : idx ∈ l := by
  induction l with
  | nil => simp [nextBoundaryLoop] at h
  | cons y rest ih =>
    simp only [nextBoundaryLoop] at h
    split at h
    · simp at h
      simp [h]
    · exact List.mem_cons_of_mem y (ih h)

theorem nextGraphemeBoundary_isBoundary (seg : List Char → List (List Char))
    (hseg : SegSpec seg) (text : List Char) (cursor : Nat) :
    IsBoundary text (nextGraphemeBoundary seg text cursor) := by
  unfold nextGraphemeBoundary
  split
  · exact isBoundary_len text
  · cases hnb : nextBoundaryLoop (graphemeIndices seg text) cursor with
    | none => simp [hnb, isBoundary_len]
    | some idx =>
      simp only [hnb]
      exact graphemeIndices_boundary seg hseg text idx
        (nextBoundaryLoop_mem _ _ _ hnb)

theorem prevBoundaryLoop_cases (l : List Nat) (cursor : Nat) :
    ∀ prev, prevBoundaryLoop l cursor prev = prev ∨
      (prevBoundaryLoop l cursor prev ∈ l ∧
        prevBoundaryLoop l cursor prev < cursor) := by
  induction l with
  | nil =>
    intro prev
    left
    rfl
  | cons idx rest ih =>
    intro prev
    by_cases h : cursor ≤ idx
    · left
      simp [prevBoundaryLoop, h]
    · have hres : prevBoundaryLoop (idx :: rest) cursor prev =
          prevBoundaryLoop rest cursor idx := by
        simp [prevBoundaryLoop, h]
      rcases ih idx with hcase | hcase
      · right
        rw [hres, hcase]
        exact ⟨List.mem_cons_self idx rest, by omega⟩
      · right
        rw [hres]
        exact ⟨List.mem_cons_of_mem idx hcase.1, hcase.2⟩

theorem prevGraphemeBoundary_isBoundary (seg : List Char → List (List Char))
    (hseg : SegSpec seg) (text : List Char) (cursor : Nat) :
    IsBoundary text (prevGraphemeBoundary seg text cursor) := by
  unfold prevGraphemeBoundary
  split
  · exact isBoundary_zero text
  · rcases prevBoundaryLoop_cases (graphemeIndices seg text) cursor 0 with h | h
    · rw [h]
      exact isBoundary_zero text
    · exact graphemeIndices_boundary seg hseg text _ h.1

theorem applyEditOp_boundary (seg : List Char → List (List Char))
    (hseg : SegSpec seg) (st : Editor)
    (hb : IsBoundary st.input st.cursor) (op : EditOp) :
    IsBoundary (applyEditOp seg st op).input (applyEditOp seg st op).cursor := by
  cases op with
  | insertChar ch =>
    simp only [applyEditOp, Editor.insertChar]
    exact nextGraphemeBoundary_isBoundary seg hseg _ _
  | deleteBackward =>
    simp only [applyEditOp, Editor.deleteBackward]
    split
    · exact hb
    · exact deleteByteRange_boundary _ _ _
        (prevGraphemeBoundary_isBoundary seg hseg st.input st.cursor)
  | deleteForward =>
    simp only [applyEditOp, Editor.deleteForward]
    split
    · exact hb
    · exact deleteByteRange_boundary _ _ _ hb
  | clearInput =>
    simp only [applyEditOp, Editor.clearInput]
    exact isBoundary_zero []
  | moveHome =>
    simp only [applyEditOp, Editor.moveHome]
    exact isBoundary_zero st.input
  | moveEnd =>
    simp only [applyEditOp, Editor.moveEnd]
    exact isBoundary_len st.input
  | moveLeft =>
    simp only [applyEditOp, Editor.moveLeft]
    exact prevGraphemeBoundary_isBoundary seg hseg st.input st.cursor
  | moveRight =>
    simp only [applyEditOp, Editor.moveRight]
    exact nextGraphemeBoundary_isBoundary seg hseg st.input st.cursor
  | historyPrev =>
    simp only [applyEditOp, Editor.historyPrev]
    split
    · exact hb
    · exact isBoundary_len _
  | historyNext =>
    simp only [applyEditOp, Editor.historyNext]
    split
    · exact hb
    · split
      · split
        · exact isBoundary_zero []
        · exact isBoundary_len _
      · exact isBoundary_zero []

theorem applyEditOps_boundary (seg : List Char → List (List Char))
    (hseg : SegSpec seg) (ops : List EditOp) :
    ∀ st, IsBoundary st.input st.cursor →
      IsBoundary (applyEditOps seg st ops).input
        (applyEditOps seg st ops).cursor := by
  induction ops with
  | nil =>
    intro st hb
    exact hb
  | cons op rest ih =>
    intro st hb
    exact ih (applyEditOp seg st op) (applyEditOp_boundary seg hseg st hb op)

/-- Claim C10: from the initial state, any sequence of editing and
navigation operations leaves the cursor on a UTF-8 character boundary of the
input, and in particular at a byte offset at most the input's byte length —
exactly the positions at which Rust's `String::insert`/`String::drain`/
slicing cannot panic. Parametric in any grapheme segmentation satisfying the
`unicode_segmentation` contract. -/
theorem editor_cursor_invariant (seg : List Char → List (List Char))
    (hseg : SegSpec seg) (history : List (List Char)) (ops : List EditOp) :
    IsBoundary (applyEditOps seg (editorInit history) ops).input
      (applyEditOps seg (editorInit history) ops).cursor ∧
    (applyEditOps seg (editorInit history) ops).cursor ≤
      utf8Len (applyEditOps seg (editorInit history) ops).input := by
  have hb := applyEditOps_boundary seg hseg ops (editorInit history)
    (isBoundary_zero [])
  exact ⟨hb, isBoundary_le _ _ hb⟩

theorem segChars_spec : SegSpec segChars := by
  intro cs
  constructor
  · induction cs with
    | nil => rfl
    | cons c rest ih => simp [segChars] at ih ⊢; exact ih
  · intro cl hcl
    simp only [segChars, List.mem_map] at hcl
    obtain ⟨c, _, hc⟩ := hcl
    rw [← hc]
    simp

/-- Witness for claim C10: the invariant instantiated at the one-cluster-per-
character segmentation and a concrete operation sequence. -/
theorem editor_cursor_invariant_witness :
    SegSpec segChars ∧
    (IsBoundary (applyEditOps segChars (editorInit [['h', 'i']])
        [EditOp.insertChar 'a', EditOp.moveLeft, EditOp.historyPrev,
          EditOp.deleteBackward]).input
      (applyEditOps segChars (editorInit [['h', 'i']])
        [EditOp.insertChar 'a', EditOp.moveLeft, EditOp.historyPrev,
          EditOp.deleteBackward]).cursor ∧
    (applyEditOps segChars (editorInit [['h', 'i']])
        [EditOp.insertChar 'a', EditOp.moveLeft, EditOp.historyPrev,
          EditOp.deleteBackward]).cursor ≤
      utf8Len (applyEditOps segChars (editorInit [['h', 'i']])
        [EditOp.insertChar 'a', EditOp.moveLeft, EditOp.historyPrev,
          EditOp.deleteBackward]).input) :=
  ⟨segChars_spec,
    editor_cursor_invariant segChars segChars_spec [['h', 'i']]
      [EditOp.insertChar 'a', EditOp.moveLeft, EditOp.historyPrev,
        EditOp.deleteBackward]⟩

end Pipetui
